import Mathlib

set_option maxRecDepth 8192

/-- A scanned span of the document: either structural text outside any quoted
string, or the content of a quoted string together with the quote character
that opened it and whether its closing quote was seen. -/
inductive Segment
  | structural (content : List Char)
  | str (delim : Char) (content : List Char) (closed : Bool)
  deriving DecidableEq

/-- The characters accumulated in a segment. -/
def segContent : Segment → List Char
  | Segment.structural c => c
  | Segment.str _ c _ => c

/-- Scanner state of convert_chinese_in_text: in_string, escape_next,
string_start_char and current_segment (lines 41-44 of
convert_to_traditional.py). -/
structure ScanState where
  inString : Bool
  escapeNext : Bool
  delim : Option Char
  buffer : List Char
  deriving DecidableEq

/-- Initial scanner state. -/
def initState : ScanState := ⟨false, false, none, []⟩

/-- One iteration of the while loop of convert_chinese_in_text (lines 46-93):
the segment flushed by this character, if any, and the successor state.
Escaped characters are appended verbatim; a backslash defers the next
character; a quote outside a string flushes the buffer (only when non-empty,
line 66) and opens a string; the matching quote closes it and always flushes;
a different quote inside a string is ordinary content. -/
def scanStep (st : ScanState) (c : Char) : Option Segment × ScanState :=
  if st.escapeNext then
    (none, { st with buffer := st.buffer ++ [c], escapeNext := false })
  else if c = '\\' then
    (none, { st with buffer := st.buffer ++ [c], escapeNext := true })
  else if c = '"' ∨ c = '\'' then
    if st.inString = false then
      ((if st.buffer.isEmpty then none else some (Segment.structural st.buffer)),
        { inString := true, escapeNext := false, delim := some c, buffer := [] })
    else if st.delim = some c then
      (some (Segment.str c st.buffer true),
        { inString := false, escapeNext := false, delim := none, buffer := [] })
    else
      (none, { st with buffer := st.buffer ++ [c] })
  else
    (none, { st with buffer := st.buffer ++ [c] })

/-- Successor state of one loop iteration. -/
def stepState (st : ScanState) (c : Char) : ScanState := (scanStep st c).2

/-- The final flush (lines 96-99): remaining buffered characters become a last
segment.  A still-open string keeps its opening delimiter and is marked
unterminated, so the dangling opening quote already emitted by the source at
line 75 is carried by this segment even when its content is empty; outside a
string an empty buffer emits nothing. -/
def finalFlush (st : ScanState) : List Segment :=
  match st.inString, st.delim with
  | true, some d => [Segment.str d st.buffer false]
  | _, _ => if st.buffer.isEmpty then [] else [Segment.structural st.buffer]

/-- The scanner loop from a given state. -/
def scanAux : ScanState → List Char → List Segment
  | st, [] => finalFlush st
  | st, c :: cs => (scanStep st c).1.toList ++ scanAux (stepState st c) cs

/-- The segments emitted while consuming the given characters, final flush
excluded. -/
def emits : ScanState → List Char → List Segment
  | _, [] => []
  | st, c :: cs => (scanStep st c).1.toList ++ emits (stepState st c) cs

/-- Scanner: the ordered segments of a document (lines 39-99). -/
def scan (x : List Char) : List Segment := scanAux initState x

/-- Scanner state after consuming a prefix of the input. -/
def stateAfter (u : List Char) : ScanState := List.foldl stepState initState u

/-- Output text of one segment: the transform conv applied to its content, with
the recorded delimiter reinserted before a String segment and after it only
when the closing quote was seen (lines 68-69, 75, 79-81, 97-99).  The
end-of-input flush converts only a non-empty buffer (line 96). -/
def segOut (conv : List Char → List Char) : Segment → List Char
  | Segment.structural c => conv c
  | Segment.str d c true => d :: (conv c ++ [d])
  | Segment.str d c false => d :: (if c.isEmpty then [] else conv c)

/-- TransformApplier and reassembly: concatenation of all segment outputs in
original order. -/
def reassemble (conv : List Char → List Char) (segs : List Segment) : List Char :=
  (segs.map (segOut conv)).flatten

/-- Text still owed to the output by a scanner state: the opening delimiter of
a currently open string followed by the buffered characters. -/
def pendingOut (st : ScanState) : List Char :=
  (if st.inString = true then st.delim.toList else []) ++ st.buffer

/-- One pass of Python str.replace for a non-empty pattern f: the counter
counts characters of a just-matched occurrence still to be skipped. -/
def replaceGo (f t : List Char) : Nat → List Char → List Char
  | _, [] => []
  | Nat.succ k, _ :: rest => replaceGo f t k rest
  | 0, c :: rest =>
    if f.isPrefixOf (c :: rest) then t ++ replaceGo f t (f.length - 1) rest
    else c :: replaceGo f t 0 rest

/-- Python src.replace(f, t): literal, non-overlapping, left-to-right
replacement of every occurrence; an empty pattern inserts t before every
character and once more at the end. -/
def replaceAll (f t src : List Char) : List Char :=
  if f = [] then t ++ (src.map (fun c => c :: t)).flatten
  else replaceGo f t 0 src

/-- CorrectionApplier: each (wrong, correct) pair applied as a literal
replacement over the current text, in table order (apply_manual_corrections,
lines 28-32, iterating the table in insertion order). -/
def applyCorrections (tbl : List (List Char × List Char)) (text : List Char) : List Char :=
  tbl.foldl (fun acc p => replaceAll p.1 p.2 acc) text

/-- MANUAL_CORRECTIONS (lines 14-26), in source order, commented entries
omitted as in the source. -/
def MANUAL_CORRECTIONS : List (List Char × List Char) :=
  [(['裏'], ['裡']), (['牀'], ['床']), (['纔'], ['才']), (['爲'], ['為']),
   (['羣'], ['群']), (['衆'], ['眾']), (['喫'], ['吃']), (['瞭'], ['了']),
   (['黴'], ['霉'])]

/-- apply_manual_corrections (lines 28-32). -/
def apply_manual_corrections (text : List Char) : List Char :=
  applyCorrections MANUAL_CORRECTIONS text

/-- Modelled from CPython: the character set removed by str.rstrip() with no
argument, Py_UNICODE_ISSPACE (the built-in rstrip used at line 108 is not part
of the repository source). -/
def pyIsSpace (c : Char) : Bool :=
  decide ((9 ≤ c.toNat ∧ c.toNat ≤ 13) ∨ c.toNat = 32 ∨ (28 ≤ c.toNat ∧ c.toNat ≤ 31) ∨
    c.toNat = 133 ∨ c.toNat = 160 ∨ c.toNat = 5760 ∨
    (8192 ≤ c.toNat ∧ c.toNat ≤ 8202) ∨ c.toNat = 8232 ∨ c.toNat = 8233 ∨
    c.toNat = 8239 ∨ c.toNat = 8287 ∨ c.toNat = 12288)

/-- Python line.rstrip(): remove trailing whitespace characters. -/
def rstrip (l : List Char) : List Char := (l.reverse.dropWhile pyIsSpace).reverse

/-- Python text.split on the line feed character: first line and remaining
lines of the text. -/
def splitAux : List Char → List Char × List (List Char)
  | [] => ([], [])
  | c :: rest =>
    if c = '\n' then ([], (splitAux rest).1 :: (splitAux rest).2)
    else (c :: (splitAux rest).1, (splitAux rest).2)

/-- Python text.split(chr(10)): always at least one line. -/
def splitOnNl (x : List Char) : List (List Char) := (splitAux x).1 :: (splitAux x).2

/-- Python: joining lines with the line feed character. -/
def joinNl : List (List Char) → List Char
  | [] => []
  | [l] => l
  | l :: l2 :: ls => l ++ '\n' :: joinNl (l2 :: ls)

/-- LineNormalizer (lines 107-109): split on line feeds, rstrip each line,
rejoin with line feeds. -/
def lineNormalize (x : List Char) : List Char := joinNl ((splitOnNl x).map rstrip)

/-- Modelled from the spec: trailing-whitespace removal as section 4.4 words
it, removing only spaces and tabs; kept for comparison with the rstrip the
source actually performs. -/
def rstripSpec (l : List Char) : List Char :=
  (l.reverse.dropWhile (fun c => c == ' ' || c == '\t')).reverse

/-- Modelled from the spec: the LineNormalizer of section 4.4, for comparison
with lineNormalize. -/
def lineNormalizeSpec (x : List Char) : List Char := joinNl ((splitOnNl x).map rstripSpec)

/-- convert_chinese_in_text (lines 34-111), with the OpenCC conversion
abstracted as the injected transform conv. -/
def convert_chinese_in_text (conv : List Char → List Char) (text : List Char) : List Char :=
  lineNormalize (apply_manual_corrections (reassemble conv (scan text)))

/-- Output text of one segment under a fallible transform; a transform error
propagates. -/
def segOutE (conv : List Char → Except (List Char) (List Char)) :
    Segment → Except (List Char) (List Char)
  | Segment.structural c => conv c
  | Segment.str d c true =>
    match conv c with
    | Except.error e => Except.error e
    | Except.ok r => Except.ok (d :: (r ++ [d]))
  | Segment.str d c false =>
    if c.isEmpty then Except.ok [d]
    else
      match conv c with
      | Except.error e => Except.error e
      | Except.ok r => Except.ok (d :: r)

/-- Reassembly under a fallible transform: the first failing segment aborts
the whole document. -/
def reassembleE (conv : List Char → Except (List Char) (List Char)) :
    List Segment → Except (List Char) (List Char)
  | [] => Except.ok []
  | s :: ss =>
    match segOutE conv s with
    | Except.error e => Except.error e
    | Except.ok r =>
      match reassembleE conv ss with
      | Except.error e => Except.error e
      | Except.ok rs => Except.ok (r ++ rs)

/-- convert_chinese_in_text under a fallible transform. -/
def convertChineseInTextE (conv : List Char → Except (List Char) (List Char))
    (text : List Char) : Except (List Char) (List Char) :=
  match reassembleE conv (scan text) with
  | Except.error e => Except.error e
  | Except.ok t => Except.ok (lineNormalize (apply_manual_corrections t))

/-- Outcome of convert_json_file on one document: the returned flag, the
content stored afterwards, and the reported diagnostic. -/
structure FileResult where
  success : Bool
  stored : List Char
  diagnostic : List Char
  deriving DecidableEq

/-- convert_json_file (lines 113-132), modelled on the document content
instead of a filesystem path: on success the converted text replaces the
content; on any error the original content is kept, False is returned, and
the diagnostic is truncated to 100 characters as in line 131. -/
def convert_json_file (conv : List Char → Except (List Char) (List Char))
    (content : List Char) : FileResult :=
  match convertChineseInTextE conv content with
  | Except.ok out => ⟨true, out, []⟩
  | Except.error e => ⟨false, content, e.take 100⟩

/-- A transform that fails on every call. -/
def convFail : List Char → Except (List Char) (List Char) :=
  fun _ => Except.error ['b', 'o', 'o', 'm']

/-- A transform that fails exactly on empty content. -/
def convFailEmpty : List Char → Except (List Char) (List Char) :=
  fun s => if s.isEmpty then Except.error ['E'] else Except.ok s

/-- No unescaped occurrence of the delimiter d: input for which the scanner,
inside a d-delimited string, never sees a closing quote. -/
def noClose (d : Char) : List Char → Bool
  | [] => true
  | c :: rest =>
    if c = '\\' then
      match rest with
      | [] => true
      | _ :: rest2 => noClose d rest2
    else if c = d then false
    else noClose d rest

theorem reassemble_append (conv : List Char → List Char) (a b : List Segment) :
    reassemble conv (a ++ b) = reassemble conv a ++ reassemble conv b := by
  simp [reassemble]

theorem reassemble_finalFlush (st : ScanState) :
    reassemble (fun s => s) (finalFlush st) = pendingOut st := by
  rcases st with ⟨ins, esc, del, buf⟩
  rcases ins <;> rcases del with _ | d <;>
    simp [finalFlush, pendingOut, reassemble, segOut] <;>
    rcases buf with _ | ⟨c, buf⟩ <;> simp [segOut]

theorem scanStep_out (st : ScanState) (c : Char) :
    reassemble (fun s => s) (scanStep st c).1.toList ++ pendingOut (stepState st c) =
      pendingOut st ++ [c] := by
  rcases st with ⟨ins, esc, del, buf⟩
  rcases esc <;> rcases ins <;>
    simp only [scanStep, stepState] <;>
    split_ifs <;>
    simp_all [pendingOut, reassemble, segOut, List.isEmpty_iff]

theorem reassemble_scanAux (x : List Char) : ∀ st : ScanState,
    reassemble (fun s => s) (scanAux st x) = pendingOut st ++ x := by
  induction x with
  | nil =>
    intro st
    simpa using reassemble_finalFlush st
  | cons c cs ih =>
    intro st
    show reassemble _ ((scanStep st c).1.toList ++ scanAux (stepState st c) cs) = _
    rw [reassemble_append, ih, ← List.append_assoc, scanStep_out, List.append_assoc]
    simp

/-- Claim C1: for every input text x, scanning x into segments and reassembling
them with the identity transform and an empty correction table reproduces x
exactly, malformed and unterminated strings included. -/
theorem C1_round_trip_identity (x : List Char) :
    applyCorrections [] (reassemble (fun s => s) (scan x)) = x := by
  show reassemble (fun s => s) (scanAux initState x) = x
  rw [reassemble_scanAux]
  simp [pendingOut, initState]

theorem scanAux_append (u : List Char) : ∀ (st : ScanState) (v : List Char),
    scanAux st (u ++ v) = emits st u ++ scanAux (List.foldl stepState st u) v := by
  induction u with
  | nil => intro st v; simp [emits]
  | cons c u ih =>
    intro st v
    show (scanStep st c).1.toList ++ scanAux (stepState st c) (u ++ v) =
      ((scanStep st c).1.toList ++ emits (stepState st c) u) ++
        scanAux (List.foldl stepState (stepState st c) u) v
    rw [ih, List.append_assoc]

theorem scanStep_cases (st : ScanState) (c : Char) (hb : st.buffer ≠ []) :
    ((scanStep st c).1 = none ∧ (stepState st c).buffer = st.buffer ++ [c]) ∨
    (∃ seg, (scanStep st c).1 = some seg ∧ segContent seg = st.buffer) := by
  rcases st with ⟨ins, esc, del, buf⟩
  rcases esc <;> rcases ins <;>
    simp only [scanStep, stepState] <;> split_ifs <;>
    simp_all [segContent, List.isEmpty_iff]

theorem buffer_flushed (v : List Char) : ∀ st : ScanState, st.buffer ≠ [] →
    ∃ seg ∈ scanAux st v, st.buffer <+: segContent seg := by
  induction v with
  | nil =>
    intro st hb
    rcases st with ⟨ins, esc, del, buf⟩
    rcases ins <;> rcases del with _ | d <;>
      simp_all [scanAux, finalFlush, segContent, List.isEmpty_iff]
  | cons c cs ih =>
    intro st hb
    rcases scanStep_cases st c hb with ⟨h1, h2⟩ | ⟨seg, h1, h2⟩
    · have hb2 : (stepState st c).buffer ≠ [] := by simp [h2]
      obtain ⟨seg, hmem, hpre⟩ := ih (stepState st c) hb2
      refine ⟨seg, ?_, ?_⟩
      · show seg ∈ (scanStep st c).1.toList ++ scanAux (stepState st c) cs
        rw [h1]
        simpa using hmem
      · have hp : st.buffer <+: st.buffer ++ [c] := ⟨[c], rfl⟩
        exact hp.trans (h2 ▸ hpre)
    · refine ⟨seg, ?_, ?_⟩
      · show seg ∈ (scanStep st c).1.toList ++ scanAux (stepState st c) cs
        rw [h1]
        simp
      · rw [h2]

theorem stepState_pair (st : ScanState) (c : Char) (h : st.escapeNext = false) :
    stepState (stepState st '\\') c =
      { st with buffer := st.buffer ++ ['\\', c], escapeNext := false } := by
  rcases st with ⟨ins, esc, del, buf⟩
  cases h
  simp [stepState, scanStep]

theorem scanAux_pair (st : ScanState) (c : Char) (h : st.escapeNext = false) (v : List Char) :
    scanAux st ('\\' :: c :: v) = scanAux (stepState (stepState st '\\') c) v := by
  rcases st with ⟨ins, esc, del, buf⟩
  cases h
  simp [scanAux, stepState, scanStep]

theorem stateAfter_append_pair (u : List Char) (c : Char) :
    stateAfter (u ++ ['\\', c]) = stepState (stepState (stateAfter u) '\\') c := by
  rw [stateAfter, List.foldl_append]
  rfl

/-- Claim C3 counterexample: the input backslash backslash quote contains a
backslash immediately followed by a quote character, yet the scanner does
treat that quote as a string boundary, opening a string, and no segment of the
scan holds the backslash-quote pair: the first backslash escapes the second,
so the quote is an unescaped delimiter. -/
theorem C3_counterexample :
    (stateAfter ['\\', '\\']).inString = false ∧
    (stateAfter ['\\', '\\', '"']).inString = true ∧
    (∀ seg ∈ scan ['\\', '\\', '"'], ¬ ['\\', '"'] <:+: segContent seg) := by
  refine ⟨rfl, rfl, ?_⟩
  decide

/-- Claim C3 amended: for every input containing an unescaped backslash (one
the scanner reaches with no pending escape) immediately followed by a quote
character, the scanner does not treat that quote as a string boundary: the
string-mode flag and recorded delimiter are unchanged after the pair, the
backslash and the quote remain inside the same segment, and the pair survives
reassembly unchanged under an identity transform. -/
theorem C3_amended_escape_preservation (u v : List Char) (c : Char)
    (_hq : c = '"' ∨ c = '\'') (h : (stateAfter u).escapeNext = false) :
    ((stateAfter (u ++ ['\\', c])).inString = (stateAfter u).inString ∧
      (stateAfter (u ++ ['\\', c])).delim = (stateAfter u).delim) ∧
    (∃ seg ∈ scan (u ++ '\\' :: c :: v), ['\\', c] <:+: segContent seg) ∧
    reassemble (fun s => s) (scan (u ++ '\\' :: c :: v)) = u ++ '\\' :: c :: v := by
  have hpair := stepState_pair (stateAfter u) c h
  refine ⟨?_, ?_, ?_⟩
  · rw [stateAfter_append_pair, hpair]
    exact ⟨rfl, rfl⟩
  · have hscan : scan (u ++ '\\' :: c :: v) =
        emits initState u ++ scanAux (stateAfter u) ('\\' :: c :: v) := by
      rw [scan, scanAux_append]
      rfl
    rw [hscan, scanAux_pair _ _ h]
    have hb : (stepState (stepState (stateAfter u) '\\') c).buffer ≠ [] := by
      rw [hpair]
      simp
    obtain ⟨seg, hmem, hpre⟩ := buffer_flushed v _ hb
    refine ⟨seg, List.mem_append_right _ hmem, ?_⟩
    obtain ⟨t, ht⟩ := hpre
    rw [hpair] at ht
    refine ⟨(stateAfter u).buffer, t, ?_⟩
    simpa [List.append_assoc] using ht
  · show reassemble (fun s => s) (scanAux initState (u ++ '\\' :: c :: v)) = _
    rw [reassemble_scanAux]
    simp [pendingOut, initState]

/-- Witness for C3_amended_escape_preservation at a concrete input. -/
theorem C3_amended_escape_preservation_witness :
    ∃ seg ∈ scan (['x'] ++ '\\' :: '"' :: ['y']), ['\\', '"'] <:+: segContent seg :=
  (C3_amended_escape_preservation ['x'] ['y'] '"' (Or.inl rfl) (by decide)).2.1

theorem scanStep_backslash (st : ScanState) :
    (scanStep st '\\').1 = none ∧ (stepState st '\\').buffer = st.buffer ++ ['\\'] := by
  rcases st with ⟨ins, esc, del, buf⟩
  rcases esc <;> simp [scanStep, stepState]

theorem finalFlush_ne (st : ScanState) (hb : st.buffer ≠ []) :
    ∃ seg, finalFlush st = [seg] ∧ segContent seg = st.buffer := by
  have hbe : st.buffer.isEmpty = false := by
    cases h : st.buffer
    · exact absurd h hb
    · rfl
  rcases st with ⟨ins, esc, del, buf⟩
  rcases ins <;> rcases del with _ | d
  · exact ⟨Segment.structural buf, by simp [finalFlush, hbe], rfl⟩
  · exact ⟨Segment.structural buf, by simp [finalFlush, hbe], rfl⟩
  · exact ⟨Segment.structural buf, by simp [finalFlush, hbe], rfl⟩
  · exact ⟨Segment.str d buf false, by simp [finalFlush], rfl⟩

theorem scanStep_no_quote (st : ScanState) (c : Char) (h1 : st.inString = false)
    (hc1 : c ≠ '"') (hc2 : c ≠ '\'') :
    (scanStep st c).1 = none ∧ (stepState st c).buffer = st.buffer ++ [c] ∧
    (stepState st c).inString = false := by
  rcases st with ⟨ins, esc, del, buf⟩
  cases h1
  rcases esc <;>
    simp only [scanStep, stepState] <;> split_ifs <;>
    simp_all

theorem scanAux_no_quote (x : List Char) : ∀ st : ScanState, st.inString = false →
    (∀ c ∈ x, c ≠ '"' ∧ c ≠ '\'') →
    scanAux st x =
      if (st.buffer ++ x).isEmpty then [] else [Segment.structural (st.buffer ++ x)] := by
  induction x with
  | nil =>
    intro st h1 _
    rcases st with ⟨ins, esc, del, buf⟩
    cases h1
    rcases del with _ | d <;> simp [scanAux, finalFlush]
  | cons c cs ih =>
    intro st h1 h2
    obtain ⟨hc1, hc2⟩ := h2 c (List.mem_cons_self c cs)
    obtain ⟨e1, e2, e3⟩ := scanStep_no_quote st c h1 hc1 hc2
    have hrec := ih (stepState st c) e3 (fun d hd => h2 d (List.mem_cons_of_mem c hd))
    show (scanStep st c).1.toList ++ scanAux (stepState st c) cs = _
    rw [e1, hrec, e2]
    simp [List.append_assoc]

/-- Claim C4: the Scanner, CorrectionApplier and LineNormalizer are total
functions of the input character sequence: they are defined (and proved here
to yield the expected result) on the empty string, on input containing no
quotes, and on input ending mid-escape, where the trailing backslash is
emitted as part of the final flushed segment. -/
theorem C4_totality :
    scan [] = [] ∧ lineNormalize [] = [] ∧ apply_manual_corrections [] = [] ∧
    (∀ x : List Char, x ≠ [] → (∀ c ∈ x, c ≠ '"' ∧ c ≠ '\'') →
      scan x = [Segment.structural x]) ∧
    (∀ u : List Char, ∃ (l : List Segment) (seg : Segment),
      scan (u ++ ['\\']) = l ++ [seg] ∧ (segContent seg).getLast? = some '\\') := by
  refine ⟨rfl, rfl, rfl, ?_, ?_⟩
  · intro x hx hq
    have hempty : x.isEmpty = false := by
      cases h : x
      · exact absurd h hx
      · rfl
    have := scanAux_no_quote x initState rfl hq
    rw [scan, this]
    simp [initState, hempty]
  · intro u
    have hdec : scan (u ++ ['\\']) = emits initState u ++ scanAux (stateAfter u) ['\\'] := by
      rw [scan, scanAux_append]
      rfl
    obtain ⟨e1, e2⟩ := scanStep_backslash (stateAfter u)
    have hb : (stepState (stateAfter u) '\\').buffer ≠ [] := by simp [e2]
    obtain ⟨seg, hf, hc⟩ := finalFlush_ne _ hb
    refine ⟨emits initState u, seg, ?_, ?_⟩
    · rw [hdec]
      show emits initState u ++
        ((scanStep (stateAfter u) '\\').1.toList ++ scanAux (stepState (stateAfter u) '\\') []) =
        emits initState u ++ [seg]
      rw [e1]
      show emits initState u ++ ([] ++ finalFlush (stepState (stateAfter u) '\\')) = _
      rw [hf]
      simp
    · rw [hc, e2]
      simp

/-- Witness for C4_totality at a concrete no-quote input ending mid-escape. -/
theorem C4_totality_witness :
    (['a', '\\'] : List Char) ≠ [] ∧ scan ['a', '\\'] = [Segment.structural ['a', '\\']] :=
  ⟨by decide, C4_totality.2.2.2.1 ['a', '\\'] (by decide) (by decide)⟩

/-- Claim C5: the double-quote-delimited input containing a literal single
quote scans as one String segment whose content keeps that single quote, not
as two segments; in general a quote character different from the recorded
delimiter, seen inside a string, is appended to the buffer as ordinary
content and does not terminate the string. -/
theorem C5_mixed_delimiter_literalness :
    scan ['"', 'A', '\'', 'B', '"'] = [Segment.str '"' ['A', '\'', 'B'] true] ∧
    ∀ (st : ScanState) (c d : Char), st.inString = true → st.delim = some d →
      st.escapeNext = false → (c = '"' ∨ c = '\'') → c ≠ d →
      scanStep st c = (none, { st with buffer := st.buffer ++ [c] }) := by
  constructor
  · decide
  · intro st c d h1 h2 h3 hq hne
    rcases st with ⟨ins, esc, del, buf⟩
    cases h1
    cases h3
    cases h2
    rcases hq with rfl | rfl <;> simp [scanStep, hne.symm]

/-- Witness for C5_mixed_delimiter_literalness: a single quote inside an open
double-quoted string is appended as content. -/
theorem C5_mixed_delimiter_literalness_witness :
    scanStep ⟨true, false, some '"', ['A']⟩ '\'' =
      (none, ⟨true, false, some '"', ['A', '\'']⟩) :=
  C5_mixed_delimiter_literalness.2 ⟨true, false, some '"', ['A']⟩ '\'' '"'
    rfl rfl rfl (Or.inr rfl) (by decide)

theorem noClose_cons (d c : Char) (cs : List Char) (hbs : c ≠ '\\') :
    noClose d (c :: cs) = if c = d then false else noClose d cs := by
  cases cs <;> simp [noClose, hbs]

theorem scanAux_nil_inString (st : ScanState) (d : Char) (h1 : st.inString = true)
    (h2 : st.delim = some d) : scanAux st [] = [Segment.str d st.buffer false] := by
  rcases st with ⟨ins, esc, del, buf⟩
  cases h1
  cases h2
  simp [scanAux, finalFlush]

theorem scanAux_noClose_fuel : ∀ (n : Nat) (rest : List Char) (st : ScanState) (d : Char),
    rest.length ≤ n → st.inString = true → st.delim = some d → st.escapeNext = false →
    noClose d rest = true →
    scanAux st rest = [Segment.str d (st.buffer ++ rest) false] := by
  intro n
  induction n with
  | zero =>
    intro rest st d hlen h1 h2 h3 _
    have hr : rest = [] := List.length_eq_zero.mp (Nat.le_zero.mp hlen)
    subst hr
    rw [scanAux_nil_inString st d h1 h2, List.append_nil]
  | succ n ih =>
    intro rest st d hlen h1 h2 h3 h4
    cases rest with
    | nil => rw [scanAux_nil_inString st d h1 h2, List.append_nil]
    | cons c cs =>
      by_cases hbs : c = '\\'
      · subst hbs
        cases cs with
        | nil =>
          rcases st with ⟨ins, esc, del, buf⟩
          cases h1
          cases h3
          cases h2
          simp [scanAux, stepState, scanStep, finalFlush]
        | cons c2 cs2 =>
          have h4c : noClose d cs2 = true := by simpa [noClose] using h4
          rcases st with ⟨ins, esc, del, buf⟩
          cases h1
          cases h3
          cases h2
          have hstep : scanAux ⟨true, false, some d, buf⟩ ('\\' :: c2 :: cs2) =
              scanAux ⟨true, false, some d, buf ++ ['\\', c2]⟩ cs2 := by
            simp [scanAux, stepState, scanStep, List.append_assoc]
          have hlen2 : cs2.length ≤ n := by
            simp only [List.length_cons] at hlen
            omega
          rw [hstep, ih cs2 ⟨true, false, some d, buf ++ ['\\', c2]⟩ d hlen2 rfl rfl rfl h4c]
          simp [List.append_assoc]
      · by_cases hcd : c = d
        · subst hcd
          rw [noClose_cons _ _ cs hbs] at h4
          simp at h4
        · have h4c : noClose d cs = true := by
            rw [noClose_cons d c cs hbs] at h4
            simpa [hcd] using h4
          rcases st with ⟨ins, esc, del, buf⟩
          cases h1
          cases h3
          cases h2
          have hstep : scanAux ⟨true, false, some d, buf⟩ (c :: cs) =
              scanAux ⟨true, false, some d, buf ++ [c]⟩ cs := by
            by_cases hq : c = '"' ∨ c = '\''
            · rcases hq with rfl | rfl <;>
                simp [scanAux, stepState, scanStep, Ne.symm hcd]
            · simp [scanAux, stepState, scanStep, hbs, hq]
          have hlen2 : cs.length ≤ n := by
            simp only [List.length_cons] at hlen
            omega
          rw [hstep, ih cs ⟨true, false, some d, buf ++ [c]⟩ d hlen2 rfl rfl rfl h4c]
          simp [List.append_assoc]

theorem scanAux_noClose (rest : List Char) (st : ScanState) (d : Char)
    (h1 : st.inString = true) (h2 : st.delim = some d) (h3 : st.escapeNext = false)
    (h4 : noClose d rest = true) :
    scanAux st rest = [Segment.str d (st.buffer ++ rest) false] :=
  scanAux_noClose_fuel rest.length rest st d (Nat.le_refl _) h1 h2 h3 h4

theorem scanAux_prefix_acc (p : List Char) : ∀ (st : ScanState) (v : List Char),
    st.inString = false → st.escapeNext = false →
    (∀ c ∈ p, c ≠ '"' ∧ c ≠ '\'' ∧ c ≠ '\\') →
    scanAux st (p ++ v) = scanAux { st with buffer := st.buffer ++ p } v := by
  induction p with
  | nil =>
    intro st v _ _ _
    simp only [List.nil_append, List.append_nil]
  | cons c p ih =>
    intro st v h1 h2 h3
    obtain ⟨hc1, hc2, hc3⟩ := h3 c (List.mem_cons_self c p)
    rcases st with ⟨ins, esc, del, buf⟩
    cases h1
    cases h2
    have hstep : scanAux ⟨false, false, del, buf⟩ ((c :: p) ++ v) =
        scanAux ⟨false, false, del, buf ++ [c]⟩ (p ++ v) := by
      simp [scanAux, stepState, scanStep, hc1, hc2, hc3]
    rw [hstep, ih ⟨false, false, del, buf ++ [c]⟩ v rfl rfl
      (fun e he => h3 e (List.mem_cons_of_mem c he))]
    simp [List.append_assoc]

/-- Claim C2 counterexample: the input consisting of a double quote followed by
the letter a has no closing delimiter, yet the scanner produces exactly ONE
segment, not two: the accumulated buffer is empty when the quote is met and
line 66 of the source flushes it only when non-empty, so no empty Structural
segment is emitted. -/
theorem C2_counterexample :
    scan ['"', 'a'] = [Segment.str '"' ['a'] false] ∧ (scan ['"', 'a']).length ≠ 2 := by
  decide

/-- Claim C2 amended: for every input consisting of a prefix free of quotes and
backslashes, then a quote delimiter, then arbitrary characters with no
unescaped closing delimiter, the scanner raises no error and produces the
String segment holding all remaining characters, preceded by a Structural
segment holding the prefix only when the prefix is non-empty; an empty buffer
at the opening quote is not flushed. -/
theorem C2_amended_unterminated (p rest : List Char) (d : Char)
    (hd : d = '"' ∨ d = '\'')
    (hp : ∀ c ∈ p, c ≠ '"' ∧ c ≠ '\'' ∧ c ≠ '\\')
    (hrest : noClose d rest = true) :
    scan (p ++ d :: rest) =
      (if p = [] then [] else [Segment.structural p]) ++ [Segment.str d rest false] := by
  rw [scan, scanAux_prefix_acc p initState (d :: rest) rfl rfl hp]
  have hinit : ({ initState with buffer := initState.buffer ++ p } : ScanState) =
      ⟨false, false, none, p⟩ := by
    simp [initState]
  rw [hinit]
  have hstep : scanAux ⟨false, false, none, p⟩ (d :: rest) =
      (if p.isEmpty then none else some (Segment.structural p)).toList ++
        scanAux ⟨true, false, some d, []⟩ rest := by
    rcases hd with rfl | rfl <;> simp [scanAux, stepState, scanStep]
  rw [hstep, scanAux_noClose rest ⟨true, false, some d, []⟩ d rfl rfl rfl hrest]
  cases hp0 : p with
  | nil => simp
  | cons a q => simp

/-- Witness for C2_amended_unterminated at a concrete input with a non-empty
prefix. -/
theorem C2_amended_unterminated_witness :
    scan ['x', '"', 'a', 'b'] = [Segment.structural ['x'], Segment.str '"' ['a', 'b'] false] := by
  have h := C2_amended_unterminated ['x'] ['a', 'b'] '"' (Or.inl rfl) (by decide) (by decide)
  simpa using h

/-- Claim C6: the CorrectionApplier applies each pair as a literal substring
replacement over the current text in table order, so an earlier replacement is
visible to a later pair: the two-pair table mapping ab to x then x to y sends
the input ab to y, and applying a concatenated table equals applying its two
halves in sequence. -/
theorem C6_correction_ordering :
    applyCorrections [(['a', 'b'], ['x']), (['x'], ['y'])] ['a', 'b'] = ['y'] ∧
    ∀ (t1 t2 : List (List Char × List Char)) (x : List Char),
      applyCorrections (t1 ++ t2) x = applyCorrections t2 (applyCorrections t1 x) := by
  constructor
  · decide
  · intro t1 t2 x
    simp [applyCorrections, List.foldl_append]

theorem reassembleE_error_of_mem (conv : List Char → Except (List Char) (List Char)) :
    ∀ (segs : List Segment) (seg : Segment) (e : List Char),
    seg ∈ segs → segOutE conv seg = Except.error e →
    ∃ e2, reassembleE conv segs = Except.error e2 := by
  intro segs
  induction segs with
  | nil =>
    intro seg e h _
    exact absurd h (List.not_mem_nil seg)
  | cons s ss ih =>
    intro seg e hmem herr
    cases hout : segOutE conv s with
    | error e2 => exact ⟨e2, by simp [reassembleE, hout]⟩
    | ok r =>
      rcases List.mem_cons.mp hmem with heq | htail
      · rw [heq, hout] at herr
        simp at herr
      · obtain ⟨e2, h2⟩ := ih seg e htail herr
        exact ⟨e2, by simp [reassembleE, hout, h2]⟩

/-- Claim C7: if the transform fails on any segment of a document, processing
of the whole document fails, the stored content stays the original (nothing is
written), and the per-document diagnostic is truncated to at most 100
characters; no retry happens, the single failing run decides the outcome. -/
theorem C7_transform_atomicity (conv : List Char → Except (List Char) (List Char))
    (content : List Char) (seg : Segment) (e : List Char)
    (hmem : seg ∈ scan content) (herr : segOutE conv seg = Except.error e) :
    (convert_json_file conv content).success = false ∧
    (convert_json_file conv content).stored = content ∧
    (convert_json_file conv content).diagnostic.length ≤ 100 := by
  obtain ⟨e2, h2⟩ := reassembleE_error_of_mem conv (scan content) seg e hmem herr
  have hconv : convertChineseInTextE conv content = Except.error e2 := by
    simp [convertChineseInTextE, h2]
  refine ⟨by simp [convert_json_file, hconv], by simp [convert_json_file, hconv], ?_⟩
  simp only [convert_json_file, hconv]
  exact e2.length_take_le 100

/-- Witness for C7_transform_atomicity with an always-failing transform on a
one-string document. -/
theorem C7_transform_atomicity_witness :
    Segment.str '"' ['a'] true ∈ scan ['"', 'a', '"'] ∧
    (convert_json_file convFail ['"', 'a', '"']).success = false ∧
    (convert_json_file convFail ['"', 'a', '"']).stored = ['"', 'a', '"'] := by
  have h := C7_transform_atomicity convFail ['"', 'a', '"'] (Segment.str '"' ['a'] true)
    ['b', 'o', 'o', 'm'] (by decide) rfl
  exact ⟨by decide, h.1, h.2.1⟩

theorem splitAux_no_nl (x : List Char) :
    '\n' ∉ (splitAux x).1 ∧ ∀ l ∈ (splitAux x).2, '\n' ∉ l := by
  induction x with
  | nil => simp [splitAux]
  | cons c rest ih =>
    by_cases hc : c = '\n'
    · subst hc
      refine ⟨by simp [splitAux], ?_⟩
      intro l hl
      simp only [splitAux, if_pos rfl] at hl
      rcases List.mem_cons.mp hl with rfl | hl2
      · exact ih.1
      · exact ih.2 l hl2
    · constructor
      · intro hmem
        simp only [splitAux, if_neg hc] at hmem
        rcases List.mem_cons.mp hmem with heq | hmem2
        · exact hc heq.symm
        · exact ih.1 hmem2
      · intro l hl
        simp only [splitAux, if_neg hc] at hl
        exact ih.2 l hl

theorem splitAux_append_no_nl (l : List Char) : ∀ y : List Char, '\n' ∉ l →
    splitAux (l ++ y) = (l ++ (splitAux y).1, (splitAux y).2) := by
  induction l with
  | nil => intro y _; simp
  | cons c l ih =>
    intro y hn
    have hc : c ≠ '\n' := fun h => hn (h ▸ List.mem_cons_self c l)
    have hl : '\n' ∉ l := fun h => hn (List.mem_cons_of_mem c h)
    simp [splitAux, hc, ih y hl]

theorem splitAux_joinNl : ∀ (ls : List (List Char)) (l : List Char), '\n' ∉ l →
    (∀ m ∈ ls, '\n' ∉ m) → splitAux (joinNl (l :: ls)) = (l, ls) := by
  intro ls
  induction ls with
  | nil =>
    intro l hl _
    show splitAux l = (l, [])
    have h := splitAux_append_no_nl l [] hl
    simpa [splitAux] using h
  | cons m ls ih =>
    intro l hl hm
    show splitAux (l ++ '\n' :: joinNl (m :: ls)) = (l, m :: ls)
    rw [splitAux_append_no_nl l ('\n' :: joinNl (m :: ls)) hl]
    have h2 : splitAux ('\n' :: joinNl (m :: ls)) =
        ([], (splitAux (joinNl (m :: ls))).1 :: (splitAux (joinNl (m :: ls))).2) := by
      simp [splitAux]
    rw [h2, ih m (hm m (List.mem_cons_self m ls)) (fun a ha => hm a (List.mem_cons_of_mem m ha))]
    simp

theorem mem_rstrip {a : Char} {l : List Char} (h : a ∈ rstrip l) : a ∈ l := by
  have h2 : a ∈ l.reverse.dropWhile pyIsSpace := by simpa [rstrip] using h
  have h3 : a ∈ l.reverse := (List.dropWhile_sublist pyIsSpace).subset h2
  simpa using h3

theorem dropWhile_dropWhile (p : Char → Bool) (y : List Char) :
    List.dropWhile p (List.dropWhile p y) = List.dropWhile p y := by
  induction y with
  | nil => simp
  | cons c y ih =>
    by_cases hc : p c
    · simpa [List.dropWhile_cons, hc] using ih
    · simp [List.dropWhile_cons, hc]

theorem rstrip_idem (l : List Char) : rstrip (rstrip l) = rstrip l := by
  simp [rstrip, dropWhile_dropWhile]

theorem map_rstrip_map_rstrip (ls : List (List Char)) :
    (ls.map rstrip).map rstrip = ls.map rstrip := by
  induction ls with
  | nil => rfl
  | cons a ls ih => simp [rstrip_idem, ih]

theorem splitOnNl_map_rstrip (x : List Char) :
    splitOnNl (lineNormalize x) = (splitOnNl x).map rstrip := by
  have hfst : '\n' ∉ rstrip (splitAux x).1 := fun h => (splitAux_no_nl x).1 (mem_rstrip h)
  have hsnd : ∀ m ∈ ((splitAux x).2).map rstrip, '\n' ∉ m := by
    intro m hm
    obtain ⟨a, ha, rfl⟩ := List.mem_map.mp hm
    exact fun h => (splitAux_no_nl x).2 a ha (mem_rstrip h)
  show (splitAux (joinNl (rstrip (splitAux x).1 :: ((splitAux x).2).map rstrip))).1 ::
    (splitAux (joinNl (rstrip (splitAux x).1 :: ((splitAux x).2).map rstrip))).2 = _
  rw [splitAux_joinNl (((splitAux x).2).map rstrip) (rstrip (splitAux x).1) hfst hsnd]
  simp [splitOnNl]

/-- Claim C8: the LineNormalizer is idempotent: normalizing twice equals
normalizing once, for every text. -/
theorem C8_line_normalize_idempotent (x : List Char) :
    lineNormalize (lineNormalize x) = lineNormalize x := by
  show joinNl ((splitOnNl (lineNormalize x)).map rstrip) = _
  rw [splitOnNl_map_rstrip, map_rstrip_map_rstrip]
  rfl

theorem rstrip_front (l : List Char) : rstrip l <+: l := by
  obtain ⟨s, hs⟩ := List.dropWhile_suffix (l := l.reverse) pyIsSpace
  refine ⟨s.reverse, ?_⟩
  have h2 := congrArg List.reverse hs
  simpa [rstrip] using h2

theorem head_dropWhile_false (p : Char → Bool) (y : List Char) (c : Char)
    (h : (y.dropWhile p).head? = some c) : p c = false := by
  induction y with
  | nil => simp at h
  | cons a y ih =>
    rw [List.dropWhile_cons] at h
    by_cases ha : p a
    · rw [if_pos ha] at h
      exact ih h
    · rw [if_neg ha] at h
      simp only [List.head?_cons, Option.some.injEq] at h
      subst h
      simpa using ha

theorem rstrip_last_not_space (l : List Char) (c : Char)
    (h : (rstrip l).getLast? = some c) : pyIsSpace c = false := by
  have h2 : (l.reverse.dropWhile pyIsSpace).head? = some c := by
    have h3 := List.getLast?_reverse (l.reverse.dropWhile pyIsSpace)
    rw [← h3]
    simpa [rstrip] using h
  exact head_dropWhile_false pyIsSpace l.reverse c h2

/-- Claim C9 counterexample: the source's rstrip removes a trailing carriage
return, a character that is neither a space nor a tab, so the normalizer does
not remove ONLY spaces and tabs: on the text a-then-carriage-return the code
yields a alone while the spec-worded normalizer keeps the carriage return. -/
theorem C9_counterexample :
    lineNormalize ['a', '\r'] = ['a'] ∧ lineNormalizeSpec ['a', '\r'] = ['a', '\r'] ∧
    lineNormalize ['a', '\r'] ≠ lineNormalizeSpec ['a', '\r'] := by
  decide

/-- Claim C9 amended: the normalizer splits on line feeds and rejoins with
line feeds, acting per line; each output line is an initial part of its input
line (so leading and interior characters are untouched and only a trailing
run is removed), that trailing run consists of Python whitespace characters
(spaces, tabs, and the other characters str.rstrip removes, such as carriage
return), and no output line ends in such a whitespace character. -/
theorem C9_amended_line_normalizer_scope (x : List Char) :
    splitOnNl (lineNormalize x) = (splitOnNl x).map rstrip ∧
    (∀ l : List Char, rstrip l <+: l) ∧
    (∀ (l : List Char) (c : Char), (rstrip l).getLast? = some c → pyIsSpace c = false) :=
  ⟨splitOnNl_map_rstrip x, rstrip_front, rstrip_last_not_space⟩

/-- Witness for C9_amended_line_normalizer_scope on a concrete line. -/
theorem C9_amended_line_normalizer_scope_witness :
    (rstrip ['a', ' ']).getLast? = some 'a' ∧ pyIsSpace 'a' = false :=
  ⟨by decide, (C9_amended_line_normalizer_scope []).2.2 ['a', ' '] 'a' (by decide)⟩

theorem scanStep_structural (st : ScanState) (ch : Char) (c : List Char)
    (h : (scanStep st ch).1 = some (Segment.structural c)) : c ≠ [] := by
  rcases st with ⟨ins, esc, del, buf⟩
  rcases esc <;> rcases ins <;>
    simp only [scanStep] at h <;> split_ifs at h <;>
    simp_all [List.isEmpty_iff]

theorem finalFlush_structural (st : ScanState) (c : List Char)
    (hmem : Segment.structural c ∈ finalFlush st) : c ≠ [] := by
  rcases st with ⟨ins, esc, del, buf⟩
  rcases ins <;> rcases del with _ | d <;>
    simp only [finalFlush] at hmem <;>
    first
    | (split at hmem <;> simp_all [List.isEmpty_iff])
    | simp_all

theorem structural_nonempty (v : List Char) : ∀ (st : ScanState) (c : List Char),
    Segment.structural c ∈ scanAux st v → c ≠ [] := by
  induction v with
  | nil =>
    intro st c hmem
    exact finalFlush_structural st c hmem
  | cons ch cs ih =>
    intro st c hmem
    simp only [scanAux] at hmem
    rcases List.mem_append.mp hmem with hl | hr
    · cases hout : (scanStep st ch).1 with
      | none =>
        rw [hout] at hl
        simp at hl
      | some seg =>
        rw [hout] at hl
        simp only [Option.toList_some, List.mem_singleton] at hl
        subst hl
        exact scanStep_structural st ch c hout
    · exact ih (stepState st ch) c hr

/-- Claim C10 counterexample: on the input of two adjacent double quotes the
string closes with empty accumulated content and the transform IS invoked on
that empty content, since the closing flush of lines 77-80 has no emptiness
guard: a transform failing exactly on empty input makes this document fail. -/
theorem C10_counterexample :
    segOutE convFailEmpty (Segment.str '"' [] true) = Except.error ['E'] ∧
    Segment.str '"' [] true ∈ scan ['"', '"'] ∧
    (convert_json_file convFailEmpty ['"', '"']).success = false :=
  ⟨rfl, by decide, rfl⟩

/-- Claim C10 amended: the transform receives only non-empty content from the
structural flushes (every Structural segment carries a non-empty content) and
from the end-of-input flush (an unterminated String segment with empty content
yields only its delimiter, with no transform call); on closing a string,
however, the transform is applied even to empty content; for the empty input
text the pipeline returns the empty string without invoking the transform at
all. -/
theorem C10_amended_transform_calls (conv : List Char → Except (List Char) (List Char)) :
    convertChineseInTextE conv [] = Except.ok [] ∧
    (∀ (x : List Char) (c : List Char), Segment.structural c ∈ scan x → c ≠ []) ∧
    (∀ d : Char, segOutE conv (Segment.str d [] false) = Except.ok [d]) := by
  refine ⟨rfl, ?_, fun d => rfl⟩
  intro x c hmem
  exact structural_nonempty x initState c hmem

/-- Witness for C10_amended_transform_calls on a concrete scan. -/
theorem C10_amended_transform_calls_witness :
    Segment.structural ['a'] ∈ scan ['a'] ∧ (['a'] : List Char) ≠ [] :=
  ⟨by decide, (C10_amended_transform_calls convFailEmpty).2.1 ['a'] ['a'] (by decide)⟩
